import Mathlib

/-!
Shallow embedding of the markdown-to-HTML core of `src/parser.rs`
(`Token`, `convert_inline_markdown`, `tokenize_line`, `tokenize_text`)
as executable Lean definitions over `List Char`, together with theorems
settling the specification claims about the Line Classifier, the Inline
Span Transformer and the Block Grouper.

Conventions of the embedding:
* a Rust `String` is a `List Char` (all pattern delimiters in the source
  are ASCII, so byte indices in the source always fall on char boundaries
  at the places where the code slices);
* a Rust panic (`unwrap` of `None`) is `Option.none`; all non-panicking
  paths return `Option.some`;
* the `u8` header-level counter wraps, so a run of n `#` characters
  yields `n % 256`;
* each regex of the source is transcribed as a first-match search
  function with the leftmost-first, lazy/greedy backtracking semantics
  of the `regex` crate (notes at each definition).
-/

namespace MdHtml

/-- The backtick character (code 96). -/
def btick : Char := Char.ofNat 96

/-- Token enum of parser.rs (unused commented-out variants omitted,
nullary struct variants become nullary constructors). `Header.level`
stores the value of the `u8` field as a `Nat` below 256. -/
inductive Token where
  | Header (level : Nat) (text : List Char)
  | Paragraph (text : List Char)
  | UListItem (text : List Char)
  | OLStart
  | OLEnd
  | OListItem (text : List Char)
  | SimpleText (text : List Char)
  | Quote (text : List Char) (nested_token : Token)
  | CodeBlockStart
  | CodeBlockEnd
  | CodeBlock
  | HorizLine
  | BreakLine
  | None
deriving DecidableEq, Repr

/-- Rust matches-macro test for the OListItem variant. -/
def Token.isOListItem : Token → Bool
  | .OListItem _ => true
  | _ => false

/-- Rust matches-macro test for the CodeBlock variant. -/
def Token.isCodeBlock : Token → Bool
  | .CodeBlock => true
  | _ => false

/-- Rust matches-macro test for the CodeBlockStart variant. -/
def Token.isCodeBlockStart : Token → Bool
  | .CodeBlockStart => true
  | _ => false

/-- Rust matches-macro test for the CodeBlockEnd variant. -/
def Token.isCodeBlockEnd : Token → Bool
  | .CodeBlockEnd => true
  | _ => false

/-- Test for the `OLEnd` marker. -/
def Token.isOLEnd : Token → Bool
  | .OLEnd => true
  | _ => false

/-- Test for the `Quote` variant. -/
def Token.isQuote : Token → Bool
  | .Quote _ _ => true
  | _ => false

/-- Rust `char::is_whitespace` (the Unicode White_Space set), used by
`str::trim` and by the regex class `\s`. -/
def isWhite (c : Char) : Bool :=
  c ∈ [' ', '\t', '\n', Char.ofNat 0x0B, Char.ofNat 0x0C, '\r',
       Char.ofNat 0x85, Char.ofNat 0xA0, Char.ofNat 0x1680,
       Char.ofNat 0x2000, Char.ofNat 0x2001, Char.ofNat 0x2002,
       Char.ofNat 0x2003, Char.ofNat 0x2004, Char.ofNat 0x2005,
       Char.ofNat 0x2006, Char.ofNat 0x2007, Char.ofNat 0x2008,
       Char.ofNat 0x2009, Char.ofNat 0x200A, Char.ofNat 0x2028,
       Char.ofNat 0x2029, Char.ofNat 0x202F, Char.ofNat 0x205F,
       Char.ofNat 0x3000]

/-- Rust `str::trim`: drop whitespace from both ends. -/
def trimL (l : List Char) : List Char :=
  ((l.dropWhile isWhite).reverse.dropWhile isWhite).reverse

/-!
### Bold stage: regex `\*\*(.+?)\*\*`

`re.find` returns the leftmost match; the lazy `.+?` makes the inner
span the shortest one of length at least 1.  `.` does not match a
newline, hence the `'\n'` cutoffs in the scan for the closing `**`.
-/

/-- Scan for the earliest position of `**`; returns the (possibly empty)
prefix before it and the suffix after it.  Fails at a newline because
the enclosing `.+?` cannot cross one. -/
def ssFind : List Char → Option (List Char × List Char)
  | [] => Option.none
  | c :: rest =>
    if c = '*' ∧ rest.head? = some '*' then some ([], rest.drop 1)
    else if c = '\n' then Option.none
    else (ssFind rest).map (fun p => (c :: p.1, p.2))

/-- Lazy inner span of the bold pattern: at least one character (not a
newline), then the closing `**`; shortest first. -/
def closeSS : List Char → Option (List Char × List Char)
  | [] => Option.none
  | c :: rest =>
    if c = '\n' then Option.none
    else (ssFind rest).map (fun p => (c :: p.1, p.2))

/-- First match of `\*\*(.+?)\*\*`: returns `(before, inner, after)`.
Starts match attempts left to right; a start needs `**`, then the lazy
inner and the closing `**`. -/
def bold_split : List Char → Option (List Char × List Char × List Char)
  | [] => Option.none
  | c :: rest =>
    if c = '*' ∧ rest.head? = some '*' then
      match closeSS (rest.drop 1) with
      | some (i, a) => some ([], i, a)
      | Option.none => (bold_split rest).map (fun t => (c :: t.1, t.2.1, t.2.2))
    else (bold_split rest).map (fun t => (c :: t.1, t.2.1, t.2.2))

/-!
### Italic stage: regex `\*(.+?)\*`
-/

/-- Scan for the earliest single `*`; prefix before it, suffix after. -/
def sFind : List Char → Option (List Char × List Char)
  | [] => Option.none
  | c :: rest =>
    if c = '*' then some ([], rest)
    else if c = '\n' then Option.none
    else (sFind rest).map (fun p => (c :: p.1, p.2))

/-- Lazy inner span of the italic pattern. -/
def closeS : List Char → Option (List Char × List Char)
  | [] => Option.none
  | c :: rest =>
    if c = '\n' then Option.none
    else (sFind rest).map (fun p => (c :: p.1, p.2))

/-- First match of `\*(.+?)\*`: returns `(before, inner, after)`. -/
def ital_split : List Char → Option (List Char × List Char × List Char)
  | [] => Option.none
  | c :: rest =>
    if c = '*' then
      match closeS rest with
      | some (i, a) => some ([], i, a)
      | Option.none => (ital_split rest).map (fun t => (c :: t.1, t.2.1, t.2.2))
    else (ital_split rest).map (fun t => (c :: t.1, t.2.1, t.2.2))

/-!
### Link stage: regex `\[[^\[\]]*(?:\[[^\[\]]*\][^\[\]]*)*\]\([^()]*\)`

The bracket part allows exactly one level of nested `[...]` pairs.  The
scan below consumes the bracket-part content after the opening `[`:
at the outer level a `]` closes, a `[` opens one nested pair (a second
`[` inside it fails, there is no deeper nesting in the pattern).
Negated classes do match newlines, so no newline cutoffs here.
-/

/-- Bracket-part scan: `bscan deep l` consumes the content after the
opening `[` (at nesting depth one when `deep`), returning the content
(with inner brackets kept verbatim) and the suffix after the closing
`]` of the outer level. -/
def bscan : Bool → List Char → Option (List Char × List Char)
  | _, [] => Option.none
  | deep, c :: rest =>
    if c = ']' then
      if deep then (bscan false rest).map (fun p => (']' :: p.1, p.2))
      else some ([], rest)
    else if c = '[' then
      if deep then Option.none
      else (bscan true rest).map (fun p => ('[' :: p.1, p.2))
    else (bscan deep rest).map (fun p => (c :: p.1, p.2))

/-- Scan of the URL content after the opening `(`: the greedy `[^()]*`
accumulates non-parenthesis characters and `\)` closes; a second `(` (or
the end of input) means no match. -/
def paren_scan : List Char → Option (List Char × List Char)
  | [] => Option.none
  | c :: rest =>
    if c = ')' then some ([], rest)
    else if c = '(' then Option.none
    else (paren_scan rest).map (fun p => (c :: p.1, p.2))

/-- Paren part `\([^()]*\)`: URL without parentheses. -/
def paren_part : List Char → Option (List Char × List Char)
  | [] => Option.none
  | c :: rest => if c = '(' then paren_scan rest else Option.none

/-- Attempt of the full link pattern just after an opening `[`:
bracket part then paren part; returns `(text, url, after)`. -/
def link_try (rest : List Char) : Option (List Char × List Char × List Char) :=
  match bscan false rest with
  | some (txt, rest2) => (paren_part rest2).map (fun q => (txt, q.1, q.2))
  | Option.none => Option.none

/-- First match of the link regex: `(before, text, url, after)`.  When
the pattern fails at one `[`, the engine advances one position. -/
def link_split : List Char → Option (List Char × List Char × List Char × List Char)
  | [] => Option.none
  | c :: rest =>
    if c = '[' then
      match link_try rest with
      | some (txt, url, after) => some ([], txt, url, after)
      | Option.none =>
        (link_split rest).map (fun t => (c :: t.1, t.2.1, t.2.2.1, t.2.2.2))
    else (link_split rest).map (fun t => (c :: t.1, t.2.1, t.2.2.1, t.2.2.2))

/-!
### Inline-code match: regex `(`+)([^`]*)(`+)` (three capture groups)

At the leftmost backtick run (length r): if a later backtick run exists,
the greedy groups match `(run, gap, second run)`.  Otherwise, if r >= 2,
backtracking splits the run itself as `(r-1 backticks, empty, 1
backtick)` (an empty span).  A single backtick with no later backtick
yields no match at all.
-/

/-- First match of the inline-code regex: `(before, g1, g2, g3, after)`
for the three capture groups. -/
def code_split : List Char → Option (List Char × List Char × List Char × List Char × List Char)
  | [] => Option.none
  | c :: rest =>
    if c = btick then
      let l := c :: rest
      let run := l.takeWhile (fun x => x = btick)
      let r1 := l.dropWhile (fun x => x = btick)
      let gap := r1.takeWhile (fun x => ¬ x = btick)
      let r2 := r1.dropWhile (fun x => ¬ x = btick)
      let run2 := r2.takeWhile (fun x => x = btick)
      let r3 := r2.dropWhile (fun x => x = btick)
      if run2 ≠ [] then some ([], run, gap, run2, r3)
      else if 2 ≤ run.length then some ([], run.dropLast, [], [btick], gap)
      else Option.none
    else
      (code_split rest).map (fun t => (c :: t.1, t.2.1, t.2.2.1, t.2.2.2.1, t.2.2.2.2))

/-!
### The rewrite loops of `convert_inline_markdown`

Each of the bold/italic/link stages repeatedly takes the first match,
appends `before ++ replacement` to the accumulated output and continues
on `after`; the residue is appended when no match remains.  The loops
are fueled by the input length (each iteration strictly shortens the
remainder, so the fuel never runs out; proved below). -/

/-- Generic first-match rewrite loop.  `step l` returns the emitted
chunk (prefix plus replacement) and the remainder. -/
def loop_go (step : List Char → Option (List Char × List Char)) :
    Nat → List Char → List Char
  | 0, l => l
  | f + 1, l =>
    match step l with
    | Option.none => l
    | some (e, a) => e ++ loop_go step f a

/-- Run a rewrite loop with enough fuel. -/
def loop_run (step : List Char → Option (List Char × List Char))
    (l : List Char) : List Char :=
  loop_go step l.length l

/-- One bold rewrite: `**inner**` becomes `<strong>inner</strong>`. -/
def bold_step (l : List Char) : Option (List Char × List Char) :=
  (bold_split l).map (fun t =>
    (t.1 ++ "<strong>".data ++ t.2.1 ++ "</strong>".data, t.2.2))

/-- One italic rewrite: `*inner*` becomes `<i>inner</i>`. -/
def ital_step (l : List Char) : Option (List Char × List Char) :=
  (ital_split l).map (fun t =>
    (t.1 ++ "<i>".data ++ t.2.1 ++ "</i>".data, t.2.2))

/-- One link rewrite: `[text](url)` becomes `<a href="url">text</a>`. -/
def link_step (l : List Char) : Option (List Char × List Char) :=
  (link_split l).map (fun t =>
    (t.1 ++ "<a href=\"".data ++ t.2.2.1 ++ "\">".data ++ t.2.1 ++ "</a>".data,
     t.2.2.2))

/-- Bold stage of `convert_inline_markdown`. -/
def bold_stage (l : List Char) : List Char := loop_run bold_step l

/-- Italic stage of `convert_inline_markdown`. -/
def ital_stage (l : List Char) : List Char := loop_run ital_step l

/-- Link stage of `convert_inline_markdown`. -/
def link_stage (l : List Char) : List Char := loop_run link_step l

/-- Inline-code stage of `convert_inline_markdown`: at most one rewrite.
When the first match has a nonempty second group, the asymmetric
backtick runs are reconciled exactly as in the source (excess closing
backticks appended, excess opening backticks prepended); otherwise the
line is returned unchanged. -/
def code_stage (l : List Char) : List Char :=
  match code_split l with
  | Option.none => l
  | some (b, g1, g2, g3, a) =>
    if 0 < g2.length then
      let mn := min g1.length g3.length
      let inner :=
        if mn = g1.length ∧ ¬ mn = g3.length then g2 ++ g3.take (g3.length - mn)
        else if mn = g3.length ∧ ¬ mn = g1.length then
          g1.take (g1.length - mn) ++ g2
        else g2
      b ++ "<code>".data ++ inner ++ "</code>".data ++ a
    else l

/-- The function convert_inline_markdown of parser.rs: bold, then italic, then
link, then inline code, each stage running on the previous stage's
output. -/
def convert_inline_markdown (l : List Char) : List Char :=
  code_stage (link_stage (ital_stage (bold_stage l)))

/-!
### The Line Classifier `tokenize_line`

`tokenize_line` recurses (through `convert_inline_markdown`) in the
block-quote branch only.  The recursion depth is the number of leading
`"> "` groups of the line, which the inline transform preserves (proved
below as `convert_inline_quoteDepth`), so the function is realized with
that depth as structural fuel; `tokenize_line_eq` below recovers the
fuel-free recursion equation of the source.

A Rust panic is `Option.none`: the header branch evaluates
`line_copy.chars().nth(0).unwrap()` after stripping every leading `#`,
which panics when nothing follows the `#` run.
-/

/-- Test of line.starts_with for the quote marker followed by a space. -/
def startsQB (l : List Char) : Bool := l.take 2 = ['>', ' ']

/-- Number of leading `"> "` groups of a line. -/
def quoteDepth : List Char → Nat
  | [] => 0
  | [_] => 0
  | c1 :: c2 :: rest => if c1 = '>' ∧ c2 = ' ' then quoteDepth rest + 1 else 0

/-- The `match nested_token` of the block-quote branch: a nested
Paragraph collapses to `Quote(text, None)`, anything else is kept under
the literal `"[DEBUG]"` placeholder text. -/
def mkQuote : Token → Token
  | .Paragraph t => .Quote t .None
  | t => .Quote "[DEBUG]".data t

/-- Match of `^\d+\.\s` and strip: one or more ASCII digits, a dot, one
whitespace character; returns the text after the matched prefix. -/
def ol_split (l : List Char) : Option (List Char) :=
  if (l.takeWhile Char.isDigit).length = 0 then Option.none
  else
    match l.dropWhile Char.isDigit with
    | '.' :: c :: rest => if isWhite c then some rest else Option.none
    | _ => Option.none

/-- The non-recursive tail of `tokenize_line` (horizontal rule,
unordered list item, code-fence delimiter, ordered list item, blank
line, paragraph fallback), in the priority order of the source. -/
def classify_tail (line : List Char) : Token :=
  if trimL line = "---".data then .HorizLine
  else if (line.head? = some '-' ∨ line.head? = some '*' ∨ line.head? = some '+')
      ∧ ((line.drop 1).head?.getD '.') = ' ' then
    .UListItem (convert_inline_markdown (line.drop 2))
  else if line.take 3 = [btick, btick, btick] then .CodeBlock
  else
    match ol_split line with
    | some rest => .OListItem (convert_inline_markdown rest)
    | Option.none =>
      if trimL line = [] then .BreakLine
      else .Paragraph (convert_inline_markdown line)

/-- Fueled body of `tokenize_line`.  Branches in source order: header
(with the panic on a line of bare `#`s and the fall-through on a missing
space), block quote (the recursive branch), then `classify_tail`.  The
`u8` header-level counter wraps modulo 256. -/
def tokenize_line_fuel : Nat → List Char → Option Token
  | 0, _ => Option.none
  | fuel + 1, line =>
    if line.head? = some '#' ∧ (line.dropWhile (fun c => c = '#')).head? = some ' ' then
      some (.Header ((line.takeWhile (fun c => c = '#')).length % 256)
        (convert_inline_markdown ((line.dropWhile (fun c => c = '#')).drop 1)))
    else if line.head? = some '#' ∧ line.dropWhile (fun c => c = '#') = [] then
      Option.none
    else if startsQB line then
      (tokenize_line_fuel fuel (convert_inline_markdown (line.drop 2))).map mkQuote
    else some (classify_tail line)

/-- The function tokenize_line of parser.rs.  `Option.none` is a panic; every
non-panicking path is `some` (the source never returns `Err`). -/
def tokenize_line (line : List Char) : Option Token :=
  tokenize_line_fuel (quoteDepth line + 1) line

/-!
### The Block Grouper and renderer (`tokenize_text`, `Display`)
-/

/-- One iteration of the grouping pass of `tokenize_text`: returns the
emitted chunk and the updated `inside_code_block` flag.  Order of
emission as in the source: `OLStart` before the current token, the
fence marker (replacing a skipped `CodeBlock` token), the current token
(replaced by `SimpleText` of the raw line inside a fence), then
`OLEnd`. -/
def group_step (last : Token) (inside : Bool) (tok : Token) (raw : List Char) :
    List Token × Bool :=
  let before := if tok.isOListItem ∧ ¬ last.isOListItem then [Token.OLStart] else []
  let fence := if tok.isCodeBlock then
      [if inside then Token.CodeBlockEnd else Token.CodeBlockStart] else []
  let skip := tok.isCodeBlock
  let inside1 := if tok.isCodeBlock then ! inside else inside
  let cur : List Token :=
    if skip then [] else if inside1 then [Token.SimpleText raw] else [tok]
  let after := if ¬ tok.isOListItem ∧ last.isOListItem then [Token.OLEnd] else []
  let inside2 := if tok.isCodeBlockStart then true else inside1
  (before ++ fence ++ cur ++ after, inside2)

/-- The grouping pass over the (token, raw line) sequence, carrying
`last_token` and `inside_code_block`. -/
def group_go (last : Token) (inside : Bool) :
    List (Token × List Char) → List Token
  | [] => []
  | (tok, raw) :: rest =>
    (group_step last inside tok raw).1 ++
      group_go tok (group_step last inside tok raw).2 rest

/-- State (`last_token`, `inside_code_block`) after a prefix of the
grouping pass. -/
def group_state (last : Token) (inside : Bool) :
    List (Token × List Char) → Token × Bool
  | [] => (last, inside)
  | (tok, raw) :: rest => group_state tok (group_step last inside tok raw).2 rest

/-- The grouping pass with its initial state (`Token::None`, `false`). -/
def groupTokens (pairs : List (Token × List Char)) : List Token :=
  group_go Token.None false pairs

/-- Per-line classification of the whole input (the first loop of
`tokenize_text`); a panic in any line aborts the program. -/
def tokenizeAll : List (List Char) → Option (List Token)
  | [] => some []
  | l :: ls =>
    match tokenize_line l with
    | some t => (tokenizeAll ls).map (fun ts => t :: ts)
    | Option.none => Option.none

/-- The `Display` implementation for `Token`. -/
def render : Token → List Char
  | .Header lvl t =>
    "<h".data ++ (Nat.repr lvl).data ++ ">".data ++ t ++
      "</h".data ++ (Nat.repr lvl).data ++ ">".data
  | .Paragraph t => "<p>".data ++ t ++ "</p>".data
  | .UListItem t => "<li>".data ++ t ++ "</li>".data
  | .OListItem t => "<li>".data ++ t ++ "</li>".data
  | .Quote t nested => "<q>".data ++ t ++ render nested ++ "</q>".data
  | .OLStart => "<ol>".data
  | .OLEnd => "</ol>".data
  | .CodeBlock => []
  | .CodeBlockStart => "<pre><code>".data
  | .CodeBlockEnd => "</code></pre>".data
  | .SimpleText t => t
  | .HorizLine => "<hr>".data
  | .BreakLine => "<br/>".data
  | .None => []

/-- The function tokenize_text of parser.rs: classify every line, run the grouping
pass over the token/raw-line sequence, render every resulting token. -/
def tokenize_text (lines : List (List Char)) : Option (List (List Char)) :=
  (tokenizeAll lines).map (fun toks =>
    (groupTokens (toks.zip lines)).map render)

/-- The spec's `transform` entry point on `String`. -/
def transform (s : String) : String :=
  String.mk (convert_inline_markdown s.data)

/-- The spec's `classify` entry point on `String` (`none` = panic). -/
def classify (s : String) : Option Token :=
  tokenize_line s.data

/-- The spec's `convert` entry point on `String` lines (`none` =
panic). -/
def convert (lines : List String) : Option (List String) :=
  (tokenize_text (lines.map String.data)).map (fun ls => ls.map String.mk)

/-!
## Decomposition lemmas for the first-match searches

Each search function, when it finds a match, splits its input into
`before ++ match ++ after`; these lemmas recover that equation (used for
loop termination bounds, head-character facts and prefix-shift facts).
-/

theorem ssFind_parts : ∀ {l i a : List Char}, ssFind l = some (i, a) →
    l = i ++ '*' :: '*' :: a := by
  intro l
  induction l with
  | nil => intro i a h; simp [ssFind] at h
  | cons c rest ih =>
    intro i a h
    simp only [ssFind] at h
    split_ifs at h with h1 h2
    · obtain ⟨hc, hh⟩ := h1
      cases rest with
      | nil => simp at hh
      | cons r rs =>
        simp at hh
        simp at h
        obtain ⟨hi, ha⟩ := h
        subst hc hh hi
        simp [← ha]
    · rw [Option.map_eq_some'] at h
      obtain ⟨⟨i', a'⟩, hf, hp⟩ := h
      simp at hp
      obtain ⟨hi, ha⟩ := hp
      subst ha
      rw [← hi, ih hf]
      simp

theorem closeSS_parts : ∀ {l i a : List Char}, closeSS l = some (i, a) →
    l = i ++ '*' :: '*' :: a ∧ i ≠ [] := by
  intro l i a h
  cases l with
  | nil => simp [closeSS] at h
  | cons c rest =>
    simp only [closeSS] at h
    split_ifs at h with h1
    rw [Option.map_eq_some'] at h
    obtain ⟨⟨i', a'⟩, hf, hp⟩ := h
    simp at hp
    obtain ⟨hi, ha⟩ := hp
    subst ha
    rw [← hi, ssFind_parts hf]
    simp

theorem bold_split_parts : ∀ {l b i a : List Char},
    bold_split l = some (b, i, a) →
    l = b ++ '*' :: '*' :: (i ++ '*' :: '*' :: a) := by
  intro l
  induction l with
  | nil => intro b i a h; simp [bold_split] at h
  | cons c rest ih =>
    intro b i a h
    simp only [bold_split] at h
    split_ifs at h with h1
    · obtain ⟨hc, hh⟩ := h1
      cases rest with
      | nil => simp at hh
      | cons r rs =>
        simp at hh
        subst hc hh
        simp only [List.drop_one, List.tail_cons] at h
        cases hclose : closeSS rs with
        | some p =>
          obtain ⟨i', a'⟩ := p
          rw [hclose] at h
          simp at h
          obtain ⟨hb, hi, ha⟩ := h
          subst hb hi ha
          have := (closeSS_parts hclose).1
          rw [← this]
          simp
        | none =>
          rw [hclose] at h
          rw [Option.map_eq_some'] at h
          obtain ⟨⟨b', i', a'⟩, hf, hp⟩ := h
          simp at hp
          obtain ⟨hb, hi, ha⟩ := hp
          subst hi ha
          rw [← hb, ih hf]
          simp
    · rw [Option.map_eq_some'] at h
      obtain ⟨⟨b', i', a'⟩, hf, hp⟩ := h
      simp at hp
      obtain ⟨hb, hi, ha⟩ := hp
      subst hi ha
      rw [← hb, ih hf]
      simp

theorem sFind_parts : ∀ {l i a : List Char}, sFind l = some (i, a) →
    l = i ++ '*' :: a := by
  intro l
  induction l with
  | nil => intro i a h; simp [sFind] at h
  | cons c rest ih =>
    intro i a h
    simp only [sFind] at h
    split_ifs at h with h1 h2
    · simp at h
      obtain ⟨hi, ha⟩ := h
      subst h1 hi
      simp [← ha]
    · rw [Option.map_eq_some'] at h
      obtain ⟨⟨i', a'⟩, hf, hp⟩ := h
      simp at hp
      obtain ⟨hi, ha⟩ := hp
      subst ha
      rw [← hi, ih hf]
      simp

theorem closeS_parts : ∀ {l i a : List Char}, closeS l = some (i, a) →
    l = i ++ '*' :: a ∧ i ≠ [] := by
  intro l i a h
  cases l with
  | nil => simp [closeS] at h
  | cons c rest =>
    simp only [closeS] at h
    split_ifs at h with h1
    rw [Option.map_eq_some'] at h
    obtain ⟨⟨i', a'⟩, hf, hp⟩ := h
    simp at hp
    obtain ⟨hi, ha⟩ := hp
    subst ha
    rw [← hi, sFind_parts hf]
    simp

theorem ital_split_parts : ∀ {l b i a : List Char},
    ital_split l = some (b, i, a) →
    l = b ++ '*' :: (i ++ '*' :: a) := by
  intro l
  induction l with
  | nil => intro b i a h; simp [ital_split] at h
  | cons c rest ih =>
    intro b i a h
    simp only [ital_split] at h
    split_ifs at h with h1
    · subst h1
      cases hclose : closeS rest with
      | some p =>
        obtain ⟨i', a'⟩ := p
        rw [hclose] at h
        simp at h
        obtain ⟨hb, hi, ha⟩ := h
        subst hb hi ha
        have := (closeS_parts hclose).1
        rw [← this]
        simp
      | none =>
        rw [hclose] at h
        rw [Option.map_eq_some'] at h
        obtain ⟨⟨b', i', a'⟩, hf, hp⟩ := h
        simp at hp
        obtain ⟨hb, hi, ha⟩ := hp
        subst hi ha
        rw [← hb, ih hf]
        simp
    · rw [Option.map_eq_some'] at h
      obtain ⟨⟨b', i', a'⟩, hf, hp⟩ := h
      simp at hp
      obtain ⟨hb, hi, ha⟩ := hp
      subst hi ha
      rw [← hb, ih hf]
      simp

theorem bscan_parts : ∀ {l c r : List Char} {deep : Bool},
    bscan deep l = some (c, r) → l = c ++ ']' :: r := by
  intro l
  induction l with
  | nil => intro c r deep h; simp [bscan] at h
  | cons x rest ih =>
    intro c r deep h
    simp only [bscan] at h
    split_ifs at h with h1 h2 h3 h4
    · rw [Option.map_eq_some'] at h
      obtain ⟨⟨c', r'⟩, hf, hp⟩ := h
      simp at hp
      obtain ⟨hc, hr⟩ := hp
      subst hr h1
      rw [← hc, ih hf]
      simp
    · simp at h
      obtain ⟨hc, hr⟩ := h
      subst h1 hc
      simp [← hr]
    · rw [Option.map_eq_some'] at h
      obtain ⟨⟨c', r'⟩, hf, hp⟩ := h
      simp at hp
      obtain ⟨hc, hr⟩ := hp
      subst hr h3
      rw [← hc, ih hf]
      simp
    · rw [Option.map_eq_some'] at h
      obtain ⟨⟨c', r'⟩, hf, hp⟩ := h
      simp at hp
      obtain ⟨hc, hr⟩ := hp
      subst hr
      rw [← hc, ih hf]
      simp

theorem paren_scan_parts : ∀ {l u r : List Char},
    paren_scan l = some (u, r) → l = u ++ ')' :: r := by
  intro l
  induction l with
  | nil => intro u r h; simp [paren_scan] at h
  | cons c rest ih =>
    intro u r h
    simp only [paren_scan] at h
    split_ifs at h with h1 h2
    · simp at h
      obtain ⟨hu, hr⟩ := h
      subst h1 hu
      simp [← hr]
    · rw [Option.map_eq_some'] at h
      obtain ⟨⟨u', r'⟩, hf, hp⟩ := h
      simp at hp
      obtain ⟨hu, hr⟩ := hp
      subst hr
      rw [← hu, ih hf]
      simp

theorem paren_part_parts : ∀ {l u r : List Char},
    paren_part l = some (u, r) → l = '(' :: (u ++ ')' :: r) := by
  intro l u r h
  cases l with
  | nil => simp [paren_part] at h
  | cons c rest =>
    simp only [paren_part] at h
    split_ifs at h with h1
    subst h1
    rw [paren_scan_parts h]

theorem link_try_parts : ∀ {l t u a : List Char},
    link_try l = some (t, u, a) →
    l = t ++ ']' :: '(' :: (u ++ ')' :: a) := by
  intro l t u a h
  simp only [link_try] at h
  cases hb : bscan false l with
  | none => rw [hb] at h; simp at h
  | some p =>
    obtain ⟨txt, rest2⟩ := p
    rw [hb] at h
    simp only [Option.map_eq_some'] at h
    obtain ⟨⟨url, after⟩, hp, hq⟩ := h
    simp at hq
    obtain ⟨ht, hu, ha⟩ := hq
    subst ht hu ha
    rw [bscan_parts hb, paren_part_parts hp]

theorem link_split_parts : ∀ {l b t u a : List Char},
    link_split l = some (b, t, u, a) →
    l = b ++ '[' :: (t ++ ']' :: '(' :: (u ++ ')' :: a)) := by
  intro l
  induction l with
  | nil => intro b t u a h; simp [link_split] at h
  | cons c rest ih =>
    intro b t u a h
    simp only [link_split] at h
    split_ifs at h with h1
    · subst h1
      cases htry : link_try rest with
      | some p =>
        obtain ⟨txt, url, after⟩ := p
        rw [htry] at h
        simp at h
        obtain ⟨h0, h1', h2', h3'⟩ := h
        subst h0 h1' h2' h3'
        rw [← link_try_parts htry]
        simp
      | none =>
        rw [htry] at h
        rw [Option.map_eq_some'] at h
        obtain ⟨⟨b', t', u', a'⟩, hf, hq⟩ := h
        simp at hq
        obtain ⟨hb', ht', hu', ha'⟩ := hq
        subst ht' hu' ha'
        rw [← hb', ih hf]
        simp
    · rw [Option.map_eq_some'] at h
      obtain ⟨⟨b', t', u', a'⟩, hf, hq⟩ := h
      simp at hq
      obtain ⟨hb', ht', hu', ha'⟩ := hq
      subst ht' hu' ha'
      rw [← hb', ih hf]
      simp

theorem dropWhile_cons_prop {α : Type} {p : α → Bool} :
    ∀ {l : List α} {d : α} {ds : List α}, l.dropWhile p = d :: ds → p d = false := by
  intro l
  induction l with
  | nil => intro d ds h; simp [List.dropWhile] at h
  | cons c cs ih =>
    intro d ds h
    rw [List.dropWhile_cons] at h
    by_cases hc : p c
    · rw [if_pos hc] at h; exact ih h
    · rw [if_neg hc] at h
      obtain ⟨hd, _⟩ := List.cons.inj h
      subst hd
      exact Bool.eq_false_iff.mpr hc

theorem code_split_parts : ∀ {l b g1 g2 g3 a : List Char},
    code_split l = some (b, g1, g2, g3, a) →
    l = b ++ (g1 ++ (g2 ++ (g3 ++ a))) := by
  intro l
  induction l with
  | nil => intro b g1 g2 g3 a h; simp [code_split] at h
  | cons c rest ih =>
    intro b g1 g2 g3 a h
    simp only [code_split] at h
    split_ifs at h with hc h1 h2
    · -- a later backtick run exists: groups are run / gap / run2
      simp only [Option.some.injEq, Prod.mk.injEq] at h
      obtain ⟨hb, hg1, hg2, hg3, ha⟩ := h
      subst hb hg1 hg2 hg3 ha
      simp only [List.nil_append]
      conv_lhs => rw [← List.takeWhile_append_dropWhile
        (p := fun x => x = btick) (l := c :: rest)]
      congr 1
      conv_lhs => rw [← List.takeWhile_append_dropWhile
        (p := fun x => ¬ x = btick)
        (l := (c :: rest).dropWhile (fun x => x = btick))]
      congr 1
      rw [List.takeWhile_append_dropWhile]
    · -- backtick run with nothing after: the run splits as r-1 / empty / 1
      simp only [Option.some.injEq, Prod.mk.injEq] at h
      obtain ⟨hb, hg1, hg2, hg3, ha⟩ := h
      subst hb hg1 hg2 hg3 ha
      simp only [List.nil_append]
      have hrun : ((c :: rest).takeWhile (fun x => x = btick)).dropLast
          ++ [btick] = (c :: rest).takeWhile (fun x => x = btick) := by
        have hne : (c :: rest).takeWhile (fun x => x = btick) ≠ [] := by
          intro hnil
          rw [hnil] at h2
          simp at h2
        have hlast : ((c :: rest).takeWhile (fun x => x = btick)).getLast hne
            = btick := by
          have hmem := List.getLast_mem hne
          have := List.mem_takeWhile_imp hmem
          simpa using this
        have hfull := List.dropLast_append_getLast hne
        rw [hlast] at hfull
        exact hfull
      have hr2 : ((c :: rest).dropWhile (fun x => x = btick)).dropWhile
          (fun x => ¬ x = btick) = [] := by
        cases hd : ((c :: rest).dropWhile (fun x => x = btick)).dropWhile
            (fun x => ¬ x = btick) with
        | nil => rfl
        | cons d ds =>
          exfalso
          have hdb : d = btick := by
            have := dropWhile_cons_prop hd
            simpa using this
          rw [hd] at h1
          rw [List.takeWhile_cons] at h1
          simp [hdb] at h1
      calc c :: rest
          = (c :: rest).takeWhile (fun x => x = btick)
            ++ (c :: rest).dropWhile (fun x => x = btick) :=
            (List.takeWhile_append_dropWhile (fun x => x = btick)
              (c :: rest)).symm
        _ = (((c :: rest).takeWhile (fun x => x = btick)).dropLast ++ [btick])
            ++ (c :: rest).dropWhile (fun x => x = btick) := by rw [hrun]
        _ = ((c :: rest).takeWhile (fun x => x = btick)).dropLast
            ++ ([btick]
            ++ (c :: rest).dropWhile (fun x => x = btick)) := by
            rw [List.append_assoc]
        _ = _ := by
            congr 2
            conv_lhs => rw [← List.takeWhile_append_dropWhile
              (p := fun x => ¬ x = btick)
              (l := (c :: rest).dropWhile (fun x => x = btick))]
            rw [hr2]
            simp
    · rw [Option.map_eq_some'] at h
      obtain ⟨⟨b', q1, q2, q3, a'⟩, hf, hq⟩ := h
      simp only [Prod.mk.injEq] at hq
      obtain ⟨hb, hq1, hq2, hq3, ha⟩ := hq
      subst hq1 hq2 hq3 ha
      rw [← hb, ih hf]
      simp

/-!
## Generic lemmas for the fueled rewrite loops
-/

theorem loop_go_congr (step : List Char → Option (List Char × List Char))
    (hstep : ∀ l e a, step l = some (e, a) → a.length < l.length) :
    ∀ f l, l.length ≤ f → loop_go step f l = loop_go step l.length l := by
  intro f
  induction f using Nat.strong_induction_on with
  | _ f ih =>
    intro l hl
    cases f with
    | zero =>
      have hnil : l = [] := by
        cases l with
        | nil => rfl
        | cons c cs => simp at hl
      subst hnil; rfl
    | succ f' =>
      cases l with
      | nil =>
        cases hsp : step [] with
        | none => simp [loop_go, hsp]
        | some p =>
          have := hstep [] p.1 p.2 (by simpa using hsp)
          simp at this
      | cons c cs =>
        cases hsp : step (c :: cs) with
        | none => simp [loop_go, hsp]
        | some p =>
          obtain ⟨e, a⟩ := p
          have ha : a.length < (c :: cs).length := hstep _ _ _ hsp
          simp only [List.length_cons] at ha hl ⊢
          simp only [loop_go, hsp]
          congr 1
          have h1 : loop_go step f' a = loop_go step a.length a :=
            ih f' (by omega) a (by omega)
          have h2 : loop_go step cs.length a = loop_go step a.length a :=
            ih cs.length (by omega) a (by omega)
          rw [h1, h2]

theorem loop_run_eq (step : List Char → Option (List Char × List Char))
    (hstep : ∀ l e a, step l = some (e, a) → a.length < l.length)
    (l : List Char) :
    loop_run step l = match step l with
      | Option.none => l
      | some (e, a) => e ++ loop_run step a := by
  unfold loop_run
  cases hsp : step l with
  | none =>
    cases l with
    | nil => rfl
    | cons c cs => simp [loop_go, hsp]
  | some p =>
    obtain ⟨e, a⟩ := p
    have ha := hstep _ _ _ hsp
    cases l with
    | nil => simp at ha
    | cons c cs =>
      simp only [List.length_cons, loop_go, hsp]
      congr 1
      exact loop_go_congr step hstep cs.length a
        (by simp only [List.length_cons] at ha; omega)

theorem loop_run_shift (step : List Char → Option (List Char × List Char))
    (hstep : ∀ l e a, step l = some (e, a) → a.length < l.length)
    (u t : List Char)
    (hu : step (u ++ t) = (step t).map (fun p => (u ++ p.1, p.2))) :
    loop_run step (u ++ t) = u ++ loop_run step t := by
  rw [loop_run_eq step hstep (u ++ t), loop_run_eq step hstep t]
  cases hsp : step t with
  | none => rw [hu, hsp]; rfl
  | some p =>
    obtain ⟨e, a⟩ := p
    rw [hu, hsp]
    simp [List.append_assoc]

theorem loop_run_head (step : List Char → Option (List Char × List Char))
    (hstep : ∀ l e a, step l = some (e, a) → a.length < l.length)
    (l : List Char)
    (hhead : ∀ e a, step l = some (e, a) →
      e.head? = l.head? ∨ e.head? = some '<') :
    (loop_run step l).head? = l.head? ∨ (loop_run step l).head? = some '<' := by
  rw [loop_run_eq step hstep l]
  cases hsp : step l with
  | none => left; rfl
  | some p =>
    obtain ⟨e, a⟩ := p
    have he := hhead e a hsp
    have hl : l ≠ [] := by
      rintro rfl
      have := hstep _ _ _ hsp
      simp at this
    have hene : e ≠ [] := by
      intro henil
      rw [henil] at he
      rcases he with he | he
      · cases l with
        | nil => exact hl rfl
        | cons c cs => simp at he
      · simp at he
    rcases he with he | he
    · left
      rw [List.head?_append_of_ne_nil e hene, he]
    · right
      rw [List.head?_append_of_ne_nil e hene, he]

/-!
## Instantiation of the loop lemmas for the three looping stages
-/

theorem bold_step_length {l e a : List Char} (h : bold_step l = some (e, a)) :
    a.length < l.length := by
  simp only [bold_step, Option.map_eq_some'] at h
  obtain ⟨⟨b, i, a'⟩, hf, hp⟩ := h
  simp only [Prod.mk.injEq] at hp
  obtain ⟨_, ha⟩ := hp
  subst ha
  have := bold_split_parts hf
  subst this
  simp
  omega

theorem ital_step_length {l e a : List Char} (h : ital_step l = some (e, a)) :
    a.length < l.length := by
  simp only [ital_step, Option.map_eq_some'] at h
  obtain ⟨⟨b, i, a'⟩, hf, hp⟩ := h
  simp only [Prod.mk.injEq] at hp
  obtain ⟨_, ha⟩ := hp
  subst ha
  have := ital_split_parts hf
  subst this
  simp
  omega

theorem link_step_length {l e a : List Char} (h : link_step l = some (e, a)) :
    a.length < l.length := by
  simp only [link_step, Option.map_eq_some'] at h
  obtain ⟨⟨b, t, u, a'⟩, hf, hp⟩ := h
  simp only [Prod.mk.injEq] at hp
  obtain ⟨_, ha⟩ := hp
  subst ha
  have := link_split_parts hf
  subst this
  simp
  omega

theorem bold_step_head {l e a : List Char} (h : bold_step l = some (e, a)) :
    e.head? = l.head? ∨ e.head? = some '<' := by
  simp only [bold_step, Option.map_eq_some'] at h
  obtain ⟨⟨b, i, a'⟩, hf, hp⟩ := h
  simp only [Prod.mk.injEq] at hp
  obtain ⟨he, _⟩ := hp
  have hparts := bold_split_parts hf
  subst hparts
  cases b with
  | nil => right; rw [← he]; rfl
  | cons c bs => left; rw [← he]; rfl

theorem ital_step_head {l e a : List Char} (h : ital_step l = some (e, a)) :
    e.head? = l.head? ∨ e.head? = some '<' := by
  simp only [ital_step, Option.map_eq_some'] at h
  obtain ⟨⟨b, i, a'⟩, hf, hp⟩ := h
  simp only [Prod.mk.injEq] at hp
  obtain ⟨he, _⟩ := hp
  have hparts := ital_split_parts hf
  subst hparts
  cases b with
  | nil => right; rw [← he]; rfl
  | cons c bs => left; rw [← he]; rfl

theorem link_step_head {l e a : List Char} (h : link_step l = some (e, a)) :
    e.head? = l.head? ∨ e.head? = some '<' := by
  simp only [link_step, Option.map_eq_some'] at h
  obtain ⟨⟨b, t, u, a'⟩, hf, hp⟩ := h
  simp only [Prod.mk.injEq] at hp
  obtain ⟨he, _⟩ := hp
  have hparts := link_split_parts hf
  subst hparts
  cases b with
  | nil => right; rw [← he]; rfl
  | cons c bs => left; rw [← he]; rfl

theorem bold_split_shift : ∀ {u : List Char} (t : List Char),
    (∀ c ∈ u, ¬ c = '*') →
    bold_split (u ++ t) =
      (bold_split t).map (fun x => (u ++ x.1, x.2.1, x.2.2)) := by
  intro u
  induction u with
  | nil =>
    intro t _
    cases h : bold_split t with
    | none => simp [h]
    | some p => obtain ⟨b, i, a⟩ := p; simp [h]
  | cons c u ih =>
    intro t hu
    have hc : ¬ c = '*' := hu c (List.mem_cons_self c _)
    rw [List.cons_append]
    simp only [bold_split]
    rw [if_neg (by simp [hc])]
    rw [ih t (fun x hx => hu x (List.mem_cons_of_mem c hx))]
    cases h : bold_split t with
    | none => simp
    | some p => obtain ⟨b, i, a⟩ := p; simp

theorem ital_split_shift : ∀ {u : List Char} (t : List Char),
    (∀ c ∈ u, ¬ c = '*') →
    ital_split (u ++ t) =
      (ital_split t).map (fun x => (u ++ x.1, x.2.1, x.2.2)) := by
  intro u
  induction u with
  | nil =>
    intro t _
    cases h : ital_split t with
    | none => simp [h]
    | some p => obtain ⟨b, i, a⟩ := p; simp [h]
  | cons c u ih =>
    intro t hu
    have hc : ¬ c = '*' := hu c (List.mem_cons_self c _)
    rw [List.cons_append]
    simp only [ital_split]
    rw [if_neg hc]
    rw [ih t (fun x hx => hu x (List.mem_cons_of_mem c hx))]
    cases h : ital_split t with
    | none => simp
    | some p => obtain ⟨b, i, a⟩ := p; simp

theorem link_split_shift : ∀ {u : List Char} (t : List Char),
    (∀ c ∈ u, ¬ c = '[') →
    link_split (u ++ t) =
      (link_split t).map (fun x => (u ++ x.1, x.2.1, x.2.2.1, x.2.2.2)) := by
  intro u
  induction u with
  | nil =>
    intro t _
    cases h : link_split t with
    | none => simp [h]
    | some p => obtain ⟨b, x, y, a⟩ := p; simp [h]
  | cons c u ih =>
    intro t hu
    have hc : ¬ c = '[' := hu c (List.mem_cons_self c _)
    rw [List.cons_append]
    simp only [link_split]
    rw [if_neg hc]
    rw [ih t (fun x hx => hu x (List.mem_cons_of_mem c hx))]
    cases h : link_split t with
    | none => simp
    | some p => obtain ⟨b, x, y, a⟩ := p; simp

theorem code_split_shift : ∀ {u : List Char} (t : List Char),
    (∀ c ∈ u, ¬ c = btick) →
    code_split (u ++ t) =
      (code_split t).map
        (fun x => (u ++ x.1, x.2.1, x.2.2.1, x.2.2.2.1, x.2.2.2.2)) := by
  intro u
  induction u with
  | nil =>
    intro t _
    cases h : code_split t with
    | none => simp [h]
    | some p => obtain ⟨b, x, y, z, a⟩ := p; simp [h]
  | cons c u ih =>
    intro t hu
    have hc : ¬ c = btick := hu c (List.mem_cons_self c _)
    rw [List.cons_append]
    simp only [code_split]
    rw [if_neg hc]
    rw [ih t (fun x hx => hu x (List.mem_cons_of_mem c hx))]
    cases h : code_split t with
    | none => simp
    | some p => obtain ⟨b, x, y, z, a⟩ := p; simp

theorem bold_step_shift {u : List Char} (t : List Char)
    (hu : ∀ c ∈ u, ¬ c = '*') :
    bold_step (u ++ t) = (bold_step t).map (fun p => (u ++ p.1, p.2)) := by
  simp only [bold_step]
  rw [bold_split_shift t hu]
  cases h : bold_split t with
  | none => simp
  | some p => obtain ⟨b, i, a⟩ := p; simp [List.append_assoc]

theorem ital_step_shift {u : List Char} (t : List Char)
    (hu : ∀ c ∈ u, ¬ c = '*') :
    ital_step (u ++ t) = (ital_step t).map (fun p => (u ++ p.1, p.2)) := by
  simp only [ital_step]
  rw [ital_split_shift t hu]
  cases h : ital_split t with
  | none => simp
  | some p => obtain ⟨b, i, a⟩ := p; simp [List.append_assoc]

theorem link_step_shift {u : List Char} (t : List Char)
    (hu : ∀ c ∈ u, ¬ c = '[') :
    link_step (u ++ t) = (link_step t).map (fun p => (u ++ p.1, p.2)) := by
  simp only [link_step]
  rw [link_split_shift t hu]
  cases h : link_split t with
  | none => simp
  | some p => obtain ⟨b, x, y, a⟩ := p; simp [List.append_assoc]

/-- Recursion equation of the bold stage. -/
theorem bold_stage_eq (l : List Char) :
    bold_stage l = match bold_step l with
      | Option.none => l
      | some (e, a) => e ++ bold_stage a :=
  loop_run_eq bold_step (fun _ _ _ => bold_step_length) l

/-- Recursion equation of the italic stage. -/
theorem ital_stage_eq (l : List Char) :
    ital_stage l = match ital_step l with
      | Option.none => l
      | some (e, a) => e ++ ital_stage a :=
  loop_run_eq ital_step (fun _ _ _ => ital_step_length) l

/-- Recursion equation of the link stage. -/
theorem link_stage_eq (l : List Char) :
    link_stage l = match link_step l with
      | Option.none => l
      | some (e, a) => e ++ link_stage a :=
  loop_run_eq link_step (fun _ _ _ => link_step_length) l

theorem bold_stage_shift {u : List Char} (t : List Char)
    (hu : ∀ c ∈ u, ¬ c = '*') :
    bold_stage (u ++ t) = u ++ bold_stage t :=
  loop_run_shift bold_step (fun _ _ _ => bold_step_length) u t
    (bold_step_shift t hu)

theorem ital_stage_shift {u : List Char} (t : List Char)
    (hu : ∀ c ∈ u, ¬ c = '*') :
    ital_stage (u ++ t) = u ++ ital_stage t :=
  loop_run_shift ital_step (fun _ _ _ => ital_step_length) u t
    (ital_step_shift t hu)

theorem link_stage_shift {u : List Char} (t : List Char)
    (hu : ∀ c ∈ u, ¬ c = '[') :
    link_stage (u ++ t) = u ++ link_stage t :=
  loop_run_shift link_step (fun _ _ _ => link_step_length) u t
    (link_step_shift t hu)

theorem bold_stage_head (l : List Char) :
    (bold_stage l).head? = l.head? ∨ (bold_stage l).head? = some '<' :=
  loop_run_head bold_step (fun _ _ _ => bold_step_length) l
    (fun _ _ => bold_step_head)

theorem ital_stage_head (l : List Char) :
    (ital_stage l).head? = l.head? ∨ (ital_stage l).head? = some '<' :=
  loop_run_head ital_step (fun _ _ _ => ital_step_length) l
    (fun _ _ => ital_step_head)

theorem link_stage_head (l : List Char) :
    (link_stage l).head? = l.head? ∨ (link_stage l).head? = some '<' :=
  loop_run_head link_step (fun _ _ _ => link_step_length) l
    (fun _ _ => link_step_head)

theorem code_stage_shift {u : List Char} (t : List Char)
    (hu : ∀ c ∈ u, ¬ c = btick) :
    code_stage (u ++ t) = u ++ code_stage t := by
  simp only [code_stage]
  rw [code_split_shift t hu]
  cases h : code_split t with
  | none => rfl
  | some p =>
    obtain ⟨b, g1, g2, g3, a⟩ := p
    simp only [Option.map_some']
    by_cases hg : 0 < g2.length
    · simp only [if_pos hg]
      simp [List.append_assoc]
    · simp only [if_neg hg]

theorem code_stage_head (l : List Char) :
    (code_stage l).head? = l.head? ∨ (code_stage l).head? = some '<' := by
  simp only [code_stage]
  cases h : code_split l with
  | none => left; rfl
  | some p =>
    obtain ⟨b, g1, g2, g3, a⟩ := p
    by_cases hg : 0 < g2.length
    · simp only [if_pos hg]
      have hparts := code_split_parts h
      subst hparts
      cases b with
      | nil => right; rfl
      | cons c bs => left; rfl
    · simp [if_neg hg]

/-!
## The inline transform preserves the leading block-quote structure

`convert_inline_markdown` neither consumes nor creates a leading
`"> "` marker: every rewrite starts at a `*`, `[` or backtick and every
replacement starts with `<`.  Hence the `"> "`-depth of a line is
invariant, which justifies the recursion fuel of `tokenize_line`.
-/

theorem startsQB_iff {l : List Char} :
    startsQB l = true ↔ ∃ r, l = '>' :: ' ' :: r := by
  match l with
  | [] => simp [startsQB]
  | [c] => simp [startsQB]
  | c1 :: c2 :: r =>
    simp only [startsQB]
    constructor
    · intro h
      simp at h
      obtain ⟨h1, h2⟩ := h
      subst h1 h2
      exact ⟨r, rfl⟩
    · rintro ⟨r', hr⟩
      obtain ⟨h1, h2⟩ := List.cons.inj hr
      obtain ⟨h2, _⟩ := List.cons.inj h2
      subst h1 h2
      simp

theorem startsQB_head {l : List Char} (h : startsQB l = true) :
    l.head? = some '>' := by
  obtain ⟨r, rfl⟩ := startsQB_iff.mp h
  rfl

theorem startsQB_cons_gt {x : List Char} :
    startsQB ('>' :: x) = true ↔ x.head? = some ' ' := by
  rw [startsQB_iff]
  constructor
  · rintro ⟨r, hr⟩
    obtain ⟨_, h2⟩ := List.cons.inj hr
    subst h2
    rfl
  · intro hx
    cases x with
    | nil => simp at hx
    | cons c cs =>
      simp at hx
      subst hx
      exact ⟨cs, rfl⟩

theorem quoteDepth_of_nq {l : List Char} (h : startsQB l = false) :
    quoteDepth l = 0 := by
  match l with
  | [] => rfl
  | [c] => rfl
  | c1 :: c2 :: r =>
    have h12 : ¬(c1 = '>' ∧ c2 = ' ') := by
      rintro ⟨rfl, rfl⟩
      rw [startsQB_iff.mpr ⟨r, rfl⟩] at h
      simp at h
    simp [quoteDepth, h12]

theorem quoteDepth_cons_qb (rest : List Char) :
    quoteDepth ('>' :: ' ' :: rest) = quoteDepth rest + 1 := by
  simp [quoteDepth]

/-- A stage that maps `[]` to `[]`, preserves or `<`-replaces the head
character, and commutes with a `'>'` prefix, cannot create a leading
`"> "` marker. -/
theorem stage_preserves_nq (g : List Char → List Char)
    (h0 : g [] = [])
    (hhead : ∀ l, (g l).head? = l.head? ∨ (g l).head? = some '<')
    (hshift : ∀ t, g ('>' :: t) = '>' :: g t) :
    ∀ l, startsQB l = false → startsQB (g l) = false := by
  intro l h
  cases l with
  | nil => rw [h0]; rfl
  | cons c rest =>
    by_cases hc : c = '>'
    · subst hc
      rw [hshift rest]
      rw [Bool.eq_false_iff]
      intro htrue
      have hx : (g rest).head? = some ' ' := startsQB_cons_gt.mp htrue
      have hrest : rest.head? ≠ some ' ' := by
        intro hr
        have : startsQB ('>' :: rest) = true := startsQB_cons_gt.mpr hr
        rw [this] at h
        simp at h
      rcases hhead rest with hh | hh
      · exact hrest (hh ▸ hx)
      · rw [hh] at hx
        simp at hx
    · rw [Bool.eq_false_iff]
      intro htrue
      have hx : (g (c :: rest)).head? = some '>' := startsQB_head htrue
      rcases hhead (c :: rest) with hh | hh
      · rw [hh] at hx
        simp at hx
        exact hc hx
      · rw [hh] at hx
        simp at hx

theorem bold_stage_gt_shift (t : List Char) :
    bold_stage ('>' :: t) = '>' :: bold_stage t := by
  have := bold_stage_shift (u := ['>']) t (by intro c hc; simp at hc; subst hc; decide)
  simpa using this

theorem ital_stage_gt_shift (t : List Char) :
    ital_stage ('>' :: t) = '>' :: ital_stage t := by
  have := ital_stage_shift (u := ['>']) t (by intro c hc; simp at hc; subst hc; decide)
  simpa using this

theorem link_stage_gt_shift (t : List Char) :
    link_stage ('>' :: t) = '>' :: link_stage t := by
  have := link_stage_shift (u := ['>']) t (by intro c hc; simp at hc; subst hc; decide)
  simpa using this

theorem code_stage_gt_shift (t : List Char) :
    code_stage ('>' :: t) = '>' :: code_stage t := by
  have := code_stage_shift (u := ['>']) t (by intro c hc; simp at hc; subst hc; decide)
  simpa using this

theorem bold_stage_nq {l : List Char} (h : startsQB l = false) :
    startsQB (bold_stage l) = false :=
  stage_preserves_nq bold_stage rfl bold_stage_head bold_stage_gt_shift l h

theorem ital_stage_nq {l : List Char} (h : startsQB l = false) :
    startsQB (ital_stage l) = false :=
  stage_preserves_nq ital_stage rfl ital_stage_head ital_stage_gt_shift l h

theorem link_stage_nq {l : List Char} (h : startsQB l = false) :
    startsQB (link_stage l) = false :=
  stage_preserves_nq link_stage rfl link_stage_head link_stage_gt_shift l h

theorem code_stage_nq {l : List Char} (h : startsQB l = false) :
    startsQB (code_stage l) = false :=
  stage_preserves_nq code_stage rfl code_stage_head code_stage_gt_shift l h

theorem conv_nq {l : List Char} (h : startsQB l = false) :
    startsQB (convert_inline_markdown l) = false :=
  code_stage_nq (link_stage_nq (ital_stage_nq (bold_stage_nq h)))

/-- The inline transform commutes with a leading `"> "` marker (none of
its rewrites can start at `'>'` or `' '`). -/
theorem conv_qb_shift (rest : List Char) :
    convert_inline_markdown ('>' :: ' ' :: rest) =
      '>' :: ' ' :: convert_inline_markdown rest := by
  have hu : ∀ x ∈ ['>', ' '], ¬ x = '*' := by decide
  have hu2 : ∀ x ∈ ['>', ' '], ¬ x = '[' := by decide
  have hu3 : ∀ x ∈ ['>', ' '], ¬ x = btick := by decide
  unfold convert_inline_markdown
  rw [show ('>' :: ' ' :: rest) = ['>', ' '] ++ rest from rfl]
  rw [bold_stage_shift rest hu]
  rw [show (['>', ' '] ++ bold_stage rest)
      = ['>', ' '] ++ bold_stage rest from rfl]
  rw [ital_stage_shift (bold_stage rest) hu]
  rw [link_stage_shift (ital_stage (bold_stage rest)) hu2]
  rw [code_stage_shift (link_stage (ital_stage (bold_stage rest))) hu3]
  rfl

/-- The inline transform preserves the number of leading `"> "`
groups. -/
theorem conv_quoteDepth : ∀ l : List Char,
    quoteDepth (convert_inline_markdown l) = quoteDepth l := by
  have key : ∀ n (l : List Char), l.length = n →
      quoteDepth (convert_inline_markdown l) = quoteDepth l := by
    intro n
    induction n using Nat.strong_induction_on with
    | _ n ih =>
      intro l hn
      by_cases hq : startsQB l = true
      · obtain ⟨r, rfl⟩ := startsQB_iff.mp hq
        rw [conv_qb_shift r, quoteDepth_cons_qb, quoteDepth_cons_qb]
        have := ih r.length (by simp at hn; omega) r rfl
        omega
      · have hq' : startsQB l = false := Bool.eq_false_iff.mpr hq
        rw [quoteDepth_of_nq (conv_nq hq'), quoteDepth_of_nq hq']
  intro l
  exact key l.length l rfl

/-- Recursion equation of the block-quote branch of `tokenize_line`:
classify the inline-transformed remainder and wrap with `mkQuote`; a
panic below propagates. -/
theorem tokenize_line_quote (rest : List Char) :
    tokenize_line ('>' :: ' ' :: rest) =
      (tokenize_line (convert_inline_markdown rest)).map mkQuote := by
  show tokenize_line_fuel (quoteDepth ('>' :: ' ' :: rest) + 1) ('>' :: ' ' :: rest) = _
  rw [quoteDepth_cons_qb]
  simp only [tokenize_line_fuel]
  rw [if_neg (by simp), if_neg (by simp)]
  rw [if_pos (startsQB_iff.mpr ⟨rest, rfl⟩)]
  simp only [List.drop_succ_cons, List.drop_zero]
  show (tokenize_line_fuel (quoteDepth rest + 1) (convert_inline_markdown rest)).map mkQuote = _
  unfold tokenize_line
  rw [conv_quoteDepth rest]

/-!
## takeWhile / dropWhile computation helpers
-/

theorem tw_append_all {p : Char → Bool} :
    ∀ {u : List Char} (l : List Char), (∀ c ∈ u, p c = true) →
    (u ++ l).takeWhile p = u ++ l.takeWhile p := by
  intro u
  induction u with
  | nil => intro l _; rfl
  | cons c u ih =>
    intro l hu
    have hc : p c = true := hu c (List.mem_cons_self c _)
    simp only [List.cons_append, List.takeWhile_cons, hc]
    rw [ih l (fun x hx => hu x (List.mem_cons_of_mem c hx))]
    simp

theorem dw_append_all {p : Char → Bool} :
    ∀ {u : List Char} (l : List Char), (∀ c ∈ u, p c = true) →
    (u ++ l).dropWhile p = l.dropWhile p := by
  intro u
  induction u with
  | nil => intro l _; rfl
  | cons c u ih =>
    intro l hu
    have hc : p c = true := hu c (List.mem_cons_self c _)
    simp only [List.cons_append, List.dropWhile_cons, hc]
    exact ih l (fun x hx => hu x (List.mem_cons_of_mem c hx))

theorem tw_head_stop {p : Char → Bool} {l : List Char}
    (hl : ∀ d, l.head? = some d → p d = false) :
    l.takeWhile p = [] := by
  cases l with
  | nil => rfl
  | cons c cs =>
    have := hl c rfl
    simp [List.takeWhile_cons, this]

theorem dw_head_stop {p : Char → Bool} {l : List Char}
    (hl : ∀ d, l.head? = some d → p d = false) :
    l.dropWhile p = l := by
  cases l with
  | nil => rfl
  | cons c cs =>
    have := hl c rfl
    simp [List.dropWhile_cons, this]

theorem tw_all_self {p : Char → Bool} {l : List Char}
    (hl : ∀ c ∈ l, p c = true) : l.takeWhile p = l := by
  induction l with
  | nil => rfl
  | cons c cs ih =>
    have hc := hl c (List.mem_cons_self c _)
    simp only [List.takeWhile_cons, hc]
    simp [ih (fun x hx => hl x (List.mem_cons_of_mem c hx))]

/-!
## Facts about the classifier branches
-/

theorem isOListItem_iff {t : Token} :
    t.isOListItem = true ↔ ∃ txt, t = Token.OListItem txt := by
  cases t <;> simp [Token.isOListItem]

theorem isCodeBlock_iff {t : Token} :
    t.isCodeBlock = true ↔ t = Token.CodeBlock := by
  cases t <;> simp [Token.isCodeBlock]

theorem mkQuote_isQuote (x : Token) : (mkQuote x).isQuote = true := by
  cases x <;> rfl

theorem classify_tail_not_quote (l : List Char) :
    (classify_tail l).isQuote = false := by
  unfold classify_tail
  split_ifs <;> try rfl
  all_goals cases ol_split l <;> rfl

theorem classify_tail_no_marker (l : List Char) :
    (classify_tail l).isCodeBlockEnd = false ∧
      (classify_tail l).isCodeBlockStart = false := by
  unfold classify_tail
  split_ifs <;> try exact ⟨rfl, rfl⟩
  all_goals cases ol_split l <;> exact ⟨rfl, rfl⟩

theorem mkQuote_no_marker (x : Token) :
    (mkQuote x).isCodeBlockEnd = false ∧ (mkQuote x).isCodeBlockStart = false := by
  cases x <;> exact ⟨rfl, rfl⟩

/-- No result of the classifier is one of the synthetic fence markers
(they are inserted only by the Block Grouper). -/
theorem tokenize_line_no_marker : ∀ {fuel : Nat} {l : List Char} {t : Token},
    tokenize_line_fuel fuel l = some t →
    t.isCodeBlockEnd = false ∧ t.isCodeBlockStart = false := by
  intro fuel
  induction fuel with
  | zero => intro l t h; simp [tokenize_line_fuel] at h
  | succ f ih =>
    intro l t h
    simp only [tokenize_line_fuel] at h
    split_ifs at h with h1 h2 h3
    · simp at h
      subst h
      exact ⟨rfl, rfl⟩
    · rw [Option.map_eq_some'] at h
      obtain ⟨x, hx, hmk⟩ := h
      subst hmk
      exact mkQuote_no_marker x
    · simp at h
      subst h
      exact classify_tail_no_marker l

/-- The classifier yields a `Quote` exactly on lines starting with
`"> "` (and only the quote branch builds one). -/
theorem tokenize_line_quote_iff {l : List Char} {t : Token}
    (h : tokenize_line l = some t) :
    t.isQuote = true ↔ startsQB l = true := by
  unfold tokenize_line at h
  generalize hf : quoteDepth l + 1 = f at h
  match f with
  | f + 1 =>
    simp only [tokenize_line_fuel] at h
    split_ifs at h with h1 h2 h3
    · simp at h
      subst h
      constructor
      · intro hq; simp [Token.isQuote] at hq
      · intro hq
        have := startsQB_head hq
        rw [h1.1] at this
        simp at this
    · rw [Option.map_eq_some'] at h
      obtain ⟨x, hx, hmk⟩ := h
      subst hmk
      simp [mkQuote_isQuote, h3]
    · simp at h
      subst h
      rw [classify_tail_not_quote]
      simp [h3]

/-!
## Lemmas about the grouping pass
-/

theorem group_go_append (last : Token) (inside : Bool) :
    ∀ (xs ys : List (Token × List Char)),
    group_go last inside (xs ++ ys) =
      group_go last inside xs ++
        group_go (group_state last inside xs).1 (group_state last inside xs).2 ys := by
  intro xs
  induction xs generalizing last inside with
  | nil => intro ys; rfl
  | cons hd rest ih =>
    intro ys
    obtain ⟨tok, raw⟩ := hd
    simp only [List.cons_append, group_go, group_state]
    rw [List.append_eq, ih tok (group_step last inside tok raw).2 ys]
    simp [List.append_assoc]

/-- Classification results have one token per line. -/
theorem tokenizeAll_length : ∀ {lines : List (List Char)} {toks : List Token},
    tokenizeAll lines = some toks → toks.length = lines.length := by
  intro lines
  induction lines with
  | nil => intro toks h; simp [tokenizeAll] at h; simp [← h]
  | cons l ls ih =>
    intro toks h
    simp only [tokenizeAll] at h
    cases hl : tokenize_line l with
    | none => rw [hl] at h; simp at h
    | some t =>
      rw [hl] at h
      rw [Option.map_eq_some'] at h
      obtain ⟨ts, hts, rfl⟩ := h
      simp [ih hts]

/-- Every classified token comes from classifying some line. -/
theorem tokenizeAll_mem : ∀ {lines : List (List Char)} {toks : List Token},
    tokenizeAll lines = some toks →
    ∀ t ∈ toks, ∃ l, tokenize_line l = some t := by
  intro lines
  induction lines with
  | nil =>
    intro toks h t ht
    simp [tokenizeAll] at h
    subst h
    simp at ht
  | cons l ls ih =>
    intro toks h t ht
    simp only [tokenizeAll] at h
    cases hl : tokenize_line l with
    | none => rw [hl] at h; simp at h
    | some t0 =>
      rw [hl] at h
      rw [Option.map_eq_some'] at h
      obtain ⟨ts, hts, rfl⟩ := h
      rcases List.mem_cons.mp ht with rfl | hmem
      · exact ⟨l, hl⟩
      · exact ih hts t hmem

/-- Chunk emitted by one grouping iteration on the ambiguous fence
token: only the resolved marker (plus a pending `OLEnd`), never the raw
line. -/
theorem group_step_fence (last : Token) (inside : Bool) (raw : List Char) :
    group_step last inside Token.CodeBlock raw =
      ((if inside then [Token.CodeBlockEnd] else [Token.CodeBlockStart]) ++
        (if last.isOListItem = true then [Token.OLEnd] else []), ! inside) := by
  have h1 : (Token.CodeBlock).isOListItem = false := rfl
  have h2 : (Token.CodeBlock).isCodeBlock = true := rfl
  have h3 : (Token.CodeBlock).isCodeBlockStart = false := rfl
  simp only [group_step, h1, h2, h3]
  cases inside <;> cases hl : last.isOListItem <;> simp [hl]

/-- Chunk emitted by one grouping iteration on a non-fence token:
optional `OLStart`, then the token (replaced by the raw line as
`SimpleText` inside a fence), then optional `OLEnd`. -/
theorem group_step_plain (last : Token) (inside : Bool) (tok : Token)
    (raw : List Char) (htok : tok.isCodeBlock = false) :
    group_step last inside tok raw =
      ((if tok.isOListItem = true ∧ ¬ last.isOListItem = true
          then [Token.OLStart] else []) ++
        (if inside then [Token.SimpleText raw] else [tok]) ++
        (if ¬ tok.isOListItem = true ∧ last.isOListItem = true
          then [Token.OLEnd] else []),
        if tok.isCodeBlockStart = true then true else inside) := by
  simp only [group_step, htok]
  cases inside <;> simp

/-- Count of `CodeBlockEnd` markers emitted by the grouping pass: one
for every second fence token, the running parity carried by
`inside_code_block` (no classifier token is itself a marker). -/
theorem group_count_cbe :
    ∀ (ps : List (Token × List Char)) (last : Token) (inside : Bool),
    (∀ p ∈ ps, p.1.isCodeBlockEnd = false ∧ p.1.isCodeBlockStart = false) →
    List.countP Token.isCodeBlockEnd (group_go last inside ps) =
      (List.countP (fun p => p.1.isCodeBlock) ps +
        (if inside then 1 else 0)) / 2 := by
  intro ps
  induction ps with
  | nil =>
    intro last inside _
    cases inside <;> simp [group_go]
  | cons hd rest ih =>
    intro last inside hps
    obtain ⟨tok, raw⟩ := hd
    have hhd := hps (tok, raw) (List.mem_cons_self _ _)
    have hrest : ∀ p ∈ rest, p.1.isCodeBlockEnd = false ∧
        p.1.isCodeBlockStart = false :=
      fun p hp => hps p (List.mem_cons_of_mem _ hp)
    simp only [group_go, List.countP_append]
    rw [List.countP_cons]
    by_cases htok : tok.isCodeBlock = true
    · obtain rfl := isCodeBlock_iff.mp htok
      rw [group_step_fence]
      simp only [List.countP_append]
      rw [ih Token.CodeBlock (! inside) hrest]
      have h2 : List.countP Token.isCodeBlockEnd
          (if last.isOListItem = true then [Token.OLEnd] else []) = 0 := by
        split_ifs <;> simp [List.countP_cons, Token.isCodeBlockEnd]
      rw [h2]
      cases inside with
      | true =>
        simp [List.countP_cons, Token.isCodeBlockEnd, Token.isCodeBlock]
        omega
      | false =>
        simp [List.countP_cons, Token.isCodeBlockEnd, Token.isCodeBlock]
    · have htok' : tok.isCodeBlock = false := Bool.eq_false_iff.mpr htok
      rw [group_step_plain last inside tok raw htok']
      simp only [List.countP_append]
      have hb : List.countP Token.isCodeBlockEnd
          (if tok.isOListItem = true ∧ ¬ last.isOListItem = true
            then [Token.OLStart] else []) = 0 := by
        split_ifs <;> simp [List.countP_cons, Token.isCodeBlockEnd]
      have hcur : List.countP Token.isCodeBlockEnd
          (if inside then [Token.SimpleText raw] else [tok]) = 0 := by
        split_ifs with h
        · simp only [List.countP_cons, List.countP_nil]
          rw [show (Token.SimpleText raw).isCodeBlockEnd = false from rfl]
          rfl
        · simp only [List.countP_cons, List.countP_nil]
          rw [hhd.1]
          rfl
      have ha : List.countP Token.isCodeBlockEnd
          (if ¬ tok.isOListItem = true ∧ last.isOListItem = true
            then [Token.OLEnd] else []) = 0 := by
        split_ifs <;> simp [List.countP_cons, Token.isCodeBlockEnd]
      have hin2 : (if tok.isCodeBlockStart = true then true else inside)
          = inside := by
        rw [hhd.2]
        simp
      rw [hb, hcur, ha, hin2, ih tok inside hrest, htok']
      simp

/-!
## Header-run computation helpers
-/

theorem tw_hash (n : Nat) (rest : List Char) :
    (List.replicate n '#' ++ ' ' :: rest).takeWhile (fun c => c = '#') =
      List.replicate n '#' := by
  rw [tw_append_all (' ' :: rest)
    (fun c hc => by rw [List.eq_of_mem_replicate hc]; rfl)]
  rw [tw_head_stop
    (fun d hd => by simp at hd; subst hd; rfl)]
  simp

theorem dw_hash (n : Nat) (rest : List Char) :
    (List.replicate n '#' ++ ' ' :: rest).dropWhile (fun c => c = '#') =
      ' ' :: rest := by
  rw [dw_append_all (' ' :: rest)
    (fun c hc => by rw [List.eq_of_mem_replicate hc]; rfl)]
  exact dw_head_stop (fun d hd => by simp at hd; subst hd; rfl)

/-- The helper mkQuote produces a `Quote` either by collapsing a `Paragraph` (the
nested slot becomes `None`) or by wrapping the token itself under the
placeholder text. -/
theorem mkQuote_inv {x : Token} {t : List Char} {nested : Token}
    (h : mkQuote x = Token.Quote t nested) :
    (x = Token.Paragraph t ∧ nested = Token.None) ∨ nested = x := by
  cases x with
  | Paragraph p =>
    simp [mkQuote] at h
    exact Or.inl ⟨by rw [h.1], h.2.symm⟩
  | Header lvl txt => simp [mkQuote] at h; exact Or.inr h.2.symm
  | UListItem txt => simp [mkQuote] at h; exact Or.inr h.2.symm
  | OLStart => simp [mkQuote] at h; exact Or.inr h.2.symm
  | OLEnd => simp [mkQuote] at h; exact Or.inr h.2.symm
  | OListItem txt => simp [mkQuote] at h; exact Or.inr h.2.symm
  | SimpleText txt => simp [mkQuote] at h; exact Or.inr h.2.symm
  | Quote txt nt => simp [mkQuote] at h; exact Or.inr h.2.symm
  | CodeBlockStart => simp [mkQuote] at h; exact Or.inr h.2.symm
  | CodeBlockEnd => simp [mkQuote] at h; exact Or.inr h.2.symm
  | CodeBlock => simp [mkQuote] at h; exact Or.inr h.2.symm
  | HorizLine => simp [mkQuote] at h; exact Or.inr h.2.symm
  | BreakLine => simp [mkQuote] at h; exact Or.inr h.2.symm
  | None => simp [mkQuote] at h; exact Or.inr h.2.symm

/-- The inline transform preserves whether a line starts with `"> "`. -/
theorem conv_startsQB (l : List Char) :
    startsQB (convert_inline_markdown l) = startsQB l := by
  cases hq : startsQB l with
  | false => rw [conv_nq hq]
  | true =>
    obtain ⟨r, rfl⟩ := startsQB_iff.mp hq
    rw [conv_qb_shift]
    exact startsQB_iff.mpr ⟨_, rfl⟩

/-!
## Claims
-/

/-- C1.  The spec claims the Line Classifier is total and in particular
never fails on a line of bare `#` characters.  The code disagrees: the
header branch of `tokenize_line` strips every leading `#` and then calls
`line_copy.chars().nth(0).unwrap()`, which panics when the line
consisted only of `#`s (`none` in this embedding).  A `#` run followed
by a non-space falls through to Paragraph as the spec says, so the
failure is exactly the bare-`#`-run case. -/
theorem C1_classifier_panics_on_bare_hash_run :
    classify "#" = Option.none ∧
    classify "###" = Option.none ∧
    classify "#x" = some (Token.Paragraph "#x".data) :=
  ⟨rfl, rfl, rfl⟩

/-- C7.  Misnested emphasis resolves by bold-before-italic precedence:
the exact example of the spec, computed through the full inline
transform. -/
theorem C7_misnested_emphasis :
    transform "This is *italic and **bold*** text**." =
      "This is <i>italic and <strong>bold</strong></i> text**." := rfl

/-- C8.  Block-quote classification strips the `"> "` marker,
inline-transforms the remainder, recursively classifies it, collapses a
nested Paragraph into `Quote(text, Empty)` and otherwise wraps the
nested token under the literal placeholder text `"[DEBUG]"`;
concrete instances of both shapes included. -/
theorem C8_quote_branch :
    (∀ rest : List Char, tokenize_line ('>' :: ' ' :: rest) =
      (tokenize_line (convert_inline_markdown rest)).map
        (fun nested => match nested with
          | Token.Paragraph t => Token.Quote t Token.None
          | x => Token.Quote "[DEBUG]".data x)) ∧
    classify "> hello" = some (Token.Quote "hello".data Token.None) ∧
    classify "> - item" =
      some (Token.Quote "[DEBUG]".data (Token.UListItem "item".data)) := by
  refine ⟨fun rest => ?_, rfl, rfl⟩
  have hfun : mkQuote = (fun nested => match nested with
      | Token.Paragraph t => Token.Quote t Token.None
      | x => Token.Quote "[DEBUG]".data x) := by
    funext x
    cases x <;> rfl
  rw [tokenize_line_quote, hfun]

/-- C9 counterexample.  The spec claims the nested token of a `Quote` is
never itself a `Quote`; but classifying `"> > x"` recurses into the
quote branch again and produces a nested `Quote`. -/
theorem C9_counterexample :
    classify "> > x" =
      some (Token.Quote "[DEBUG]".data (Token.Quote "x".data Token.None)) ∧
    Token.isQuote (Token.Quote "x".data Token.None) = true :=
  ⟨rfl, rfl⟩

/-- C9 amended.  Quote classification does recurse into quote syntax:
the nested token of a produced `Quote` is itself a `Quote` exactly when
the line starts with a second `"> "` marker after the first. -/
theorem C9_amended_nested_quote_iff :
    ∀ (line tt : List Char) (nested : Token),
    tokenize_line line = some (Token.Quote tt nested) →
    (nested.isQuote = true ↔
      startsQB line = true ∧ startsQB (line.drop 2) = true) := by
  intro line tt nested h
  have hq : startsQB line = true :=
    (tokenize_line_quote_iff h).mp rfl
  obtain ⟨rest, rfl⟩ := startsQB_iff.mp hq
  rw [tokenize_line_quote] at h
  rw [Option.map_eq_some'] at h
  obtain ⟨x, hx, hmk⟩ := h
  have hdrop : (('>' :: ' ' :: rest).drop 2) = rest := rfl
  rw [hdrop, hq]
  simp only [true_and]
  rcases mkQuote_inv hmk with ⟨hxp, hn⟩ | hn
  · subst hn hxp
    constructor
    · intro hq'; simp [Token.isQuote] at hq'
    · intro hstart
      have hcq : startsQB (convert_inline_markdown rest) = true := by
        rw [conv_startsQB]; exact hstart
      have := (tokenize_line_quote_iff hx).mpr hcq
      simp [Token.isQuote] at this
  · subst hn
    rw [tokenize_line_quote_iff hx, conv_startsQB]

/-- C9 amended, witness at the concrete input `"> > x"`. -/
theorem C9_amended_witness :
    Token.isQuote (Token.Quote "x".data Token.None) = true :=
  (C9_amended_nested_quote_iff "> > x".data "[DEBUG]".data
    (Token.Quote "x".data Token.None) rfl).mpr ⟨rfl, rfl⟩

/-- C10.  The header level is the length of the leading `#` run as
accumulated in a `u8`, i.e. reduced modulo 2^8, with no cap at 6; the
text is the inline-transformed remainder after the mandatory space. -/
theorem C10_header_level_wraps_mod_256 :
    ∀ (n : Nat) (rest : List Char), 1 ≤ n →
    tokenize_line (List.replicate n '#' ++ ' ' :: rest) =
      some (Token.Header (n % 256) (convert_inline_markdown rest)) := by
  intro n rest hn
  obtain ⟨k, rfl⟩ : ∃ k, n = k + 1 := ⟨n - 1, by omega⟩
  have hhead : (List.replicate (k + 1) '#' ++ ' ' :: rest).head? = some '#' := by
    rw [List.replicate_succ]; rfl
  have hq : quoteDepth (List.replicate (k + 1) '#' ++ ' ' :: rest) = 0 := by
    apply quoteDepth_of_nq
    rw [Bool.eq_false_iff]
    intro htrue
    have := startsQB_head htrue
    rw [hhead] at this
    simp at this
  unfold tokenize_line
  rw [hq]
  simp only [tokenize_line_fuel]
  rw [if_pos ⟨hhead, by rw [dw_hash]; rfl⟩]
  rw [tw_hash, dw_hash]
  simp

/-- C10, witness: a run of 300 `#` characters wraps to level 44. -/
theorem C10_witness :
    tokenize_line (List.replicate 300 '#' ++ [' ']) =
      some (Token.Header 44 []) := by
  have h := C10_header_level_wraps_mod_256 300 [] (by omega)
  exact h

/-- C2 counterexample.  The spec claims a trailing run of ordered-list
items is auto-closed at end of input; the code's grouping loop inserts
`OLEnd` only when it sees a later non-list token, and the loop simply
ends, so `convert(["1. a"])` does not end with `"</ol>"`. -/
theorem C2_counterexample :
    convert ["1. a"] = some ["<ol>", "<li>a</li>"] ∧
    (convert ["1. a"]).map (fun ls => ls.getLast?) ≠ some (some "</ol>") :=
  ⟨rfl, by decide⟩

/-- C2 amended.  End of input is not treated as a list sentinel: when
the token sequence ends in an `OListItem`, the grouped output ends with
that item's emission (the item itself, or its `SimpleText` replacement
inside a fence) and never with `OLEnd`. -/
theorem C2_amended_trailing_list_not_closed :
    ∀ (ps : List (Token × List Char)) (t : Token) (r : List Char),
    t.isOListItem = true →
    ∃ e : Token, (groupTokens (ps ++ [(t, r)])).getLast? = some e ∧
      e.isOLEnd = false := by
  intro ps t r ht
  obtain ⟨txt, rfl⟩ := isOListItem_iff.mp ht
  unfold groupTokens
  rw [group_go_append]
  simp only [group_go, List.append_nil]
  rw [group_step_plain _ _ (Token.OListItem txt) r rfl]
  have h1 : (Token.OListItem txt).isOListItem = true := rfl
  have hafter : (if ¬ (Token.OListItem txt).isOListItem = true ∧
      (group_state Token.None false ps).1.isOListItem = true
      then [Token.OLEnd] else []) = ([] : List Token) := by
    rw [if_neg]
    rintro ⟨hna, _⟩
    exact hna h1
  rw [hafter, List.append_nil]
  cases hi : (group_state Token.None false ps).2 with
  | true =>
    refine ⟨Token.SimpleText r, ?_, rfl⟩
    rw [if_pos rfl]
    simp [← List.append_assoc, List.getLast?_concat]
  | false =>
    refine ⟨Token.OListItem txt, ?_, rfl⟩
    rw [if_neg (show ¬ (false = true) by simp)]
    simp [← List.append_assoc, List.getLast?_concat]

/-- C2 amended, witness: a single ordered-list item. -/
theorem C2_amended_witness :
    ∃ e : Token, (groupTokens [(Token.OListItem ['a'], ['a'])]).getLast? =
      some e ∧ e.isOLEnd = false :=
  C2_amended_trailing_list_not_closed [] (Token.OListItem ['a']) ['a'] rfl

/-- C3 counterexample.  The spec claims `OLEnd` is inserted before the
first non-list token; the code emits it after: the `"</ol>"` follows
`"<p>x</p>"` in the output. -/
theorem C3_counterexample :
    convert ["1. a", "x"] =
      some ["<ol>", "<li>a</li>", "<p>x</p>", "</ol>"] := rfl

/-- C3 amended.  When the previous token was an `OListItem` and the
current one is not, the iteration emits exactly the current token's
emission followed by `OLEnd`: the marker immediately follows (not
precedes) the first non-list token. -/
theorem C3_amended_olend_follows :
    ∀ (last tok : Token) (inside : Bool) (raw : List Char),
    last.isOListItem = true → tok.isOListItem = false →
    ∃ e : Token, (group_step last inside tok raw).1 = [e, Token.OLEnd] := by
  intro last tok inside raw hlast htok
  by_cases hcb : tok.isCodeBlock = true
  · obtain rfl := isCodeBlock_iff.mp hcb
    refine ⟨if inside then Token.CodeBlockEnd else Token.CodeBlockStart, ?_⟩
    rw [group_step_fence]
    rw [if_pos hlast]
    cases inside <;> rfl
  · have hcb' : tok.isCodeBlock = false := Bool.eq_false_iff.mpr hcb
    have hc1 : ¬ (tok.isOListItem = true ∧ ¬ last.isOListItem = true) := by
      rintro ⟨hh, _⟩
      rw [htok] at hh
      simp at hh
    have hc2 : ¬ tok.isOListItem = true ∧ last.isOListItem = true :=
      ⟨by rw [htok]; simp, hlast⟩
    refine ⟨if inside then Token.SimpleText raw else tok, ?_⟩
    rw [group_step_plain _ _ _ _ hcb']
    simp only [if_neg hc1, if_pos hc2]
    cases inside <;> rfl

/-- C3 amended, witness: a paragraph right after a list item. -/
theorem C3_amended_witness :
    ∃ e : Token, (group_step (Token.OListItem ['a']) false
      (Token.Paragraph ['x']) ['x']).1 = [e, Token.OLEnd] :=
  C3_amended_olend_follows (Token.OListItem ['a']) (Token.Paragraph ['x'])
    false ['x'] rfl rfl

/-- C4.  Well-fenced grouping: the concrete round trip of the spec;
inside a fence every non-delimiter token's emission is the raw line as
`SimpleText`; a delimiter token emits only the resolved marker (plus a
pending `OLEnd`), never the raw delimiter line. -/
theorem C4_fenced_block_grouping :
    convert ["```", "code line 1", "code line 2", "```"] =
      some ["<pre><code>", "code line 1", "code line 2", "</code></pre>"] ∧
    (∀ (last tok : Token) (raw : List Char), tok.isCodeBlock = false →
      ∃ b a, (group_step last true tok raw).1 =
        b ++ Token.SimpleText raw :: a) ∧
    (∀ (last : Token) (inside : Bool) (raw : List Char),
      ∀ x ∈ (group_step last inside Token.CodeBlock raw).1,
        x = (if inside then Token.CodeBlockEnd else Token.CodeBlockStart) ∨
          x = Token.OLEnd) := by
  refine ⟨rfl, ?_, ?_⟩
  · intro last tok raw htok
    rw [group_step_plain _ _ _ _ htok]
    refine ⟨if tok.isOListItem = true ∧ ¬ last.isOListItem = true
        then [Token.OLStart] else [],
      if ¬ tok.isOListItem = true ∧ last.isOListItem = true
        then [Token.OLEnd] else [], ?_⟩
    rw [if_pos rfl]
    simp
  · intro last inside raw x hx
    rw [group_step_fence] at hx
    rcases List.mem_append.mp hx with h | h
    · left
      cases inside <;> simpa using h
    · right
      by_cases hl : last.isOListItem = true
      · rw [if_pos hl] at h
        simpa using h
      · rw [if_neg hl] at h
        simp at h

/-- C4, witness: inside a fence a paragraph token is replaced by the
raw line. -/
theorem C4_witness :
    ∃ b a, (group_step Token.None true (Token.Paragraph ['x']) ['x']).1 =
      b ++ Token.SimpleText ['x'] :: a :=
  C4_fenced_block_grouping.2.1 Token.None (Token.Paragraph ['x']) ['x'] rfl

/-- C5.  A fence opened but never closed is not auto-closed: the number
of `CodeFenceEnd` markers in the grouped output is the number of fence
delimiter tokens divided by two (an odd trailing opener synthesizes
nothing), and the spec's concrete unterminated example ends with the raw
line, not `"</code></pre>"`. -/
theorem C5_unterminated_fence_not_closed :
    (∀ (lines : List (List Char)) (toks : List Token),
      tokenizeAll lines = some toks →
      List.countP Token.isCodeBlockEnd (groupTokens (toks.zip lines)) =
        List.countP Token.isCodeBlock toks / 2) ∧
    convert ["```", "code but never ends"] =
      some ["<pre><code>", "code but never ends"] := by
  refine ⟨?_, rfl⟩
  intro lines toks h
  unfold groupTokens
  rw [group_count_cbe]
  · have hlen := tokenizeAll_length h
    have hfst : List.map Prod.fst (toks.zip lines) = toks :=
      List.map_fst_zip toks lines (le_of_eq hlen)
    have hcount : List.countP (fun p => p.1.isCodeBlock) (toks.zip lines) =
        List.countP Token.isCodeBlock toks := by
      conv_rhs => rw [← hfst]
      rw [List.countP_map]
      rfl
    rw [hcount]
    simp
  · intro p hp
    obtain ⟨t, raw⟩ := p
    have hmem := (List.of_mem_zip hp).1
    obtain ⟨l, hl⟩ := tokenizeAll_mem h t hmem
    exact tokenize_line_no_marker
      (show tokenize_line_fuel (quoteDepth l + 1) l = some t from hl)

/-- C5, witness: a single opening fence synthesizes no closing
marker. -/
theorem C5_witness :
    List.countP Token.isCodeBlockEnd
      (groupTokens ([Token.CodeBlock].zip ["```".data])) =
      List.countP Token.isCodeBlock [Token.CodeBlock] / 2 :=
  C5_unterminated_fence_not_closed.1 ["```".data] [Token.CodeBlock] rfl

/-!
## The inline-code stage on decomposed inputs (C6)
-/

/-- Unfolding of `code_split` at a backtick-headed input. -/
theorem code_split_eq_of_head {l : List Char} (hl : l.head? = some btick) :
    code_split l =
      (if ((l.dropWhile (fun x => x = btick)).dropWhile
            (fun x => ¬ x = btick)).takeWhile (fun x => x = btick) ≠ [] then
        some ([], l.takeWhile (fun x => x = btick),
          (l.dropWhile (fun x => x = btick)).takeWhile (fun x => ¬ x = btick),
          ((l.dropWhile (fun x => x = btick)).dropWhile
            (fun x => ¬ x = btick)).takeWhile (fun x => x = btick),
          ((l.dropWhile (fun x => x = btick)).dropWhile
            (fun x => ¬ x = btick)).dropWhile (fun x => x = btick))
      else if 2 ≤ (l.takeWhile (fun x => x = btick)).length then
        some ([], (l.takeWhile (fun x => x = btick)).dropLast, [], [btick],
          (l.dropWhile (fun x => x = btick)).takeWhile (fun x => ¬ x = btick))
      else Option.none) := by
  cases l with
  | nil => simp at hl
  | cons c rest =>
    simp at hl
    subst hl
    simp only [code_split]
    simp

/-- Value of `code_split` on `backticks ++ gap ++ backticks ++ post`: the three
capture groups are exactly the three segments. -/
theorem code_split_shape1 {mid post : List Char} {n m : Nat}
    (hmid : ∀ c ∈ mid, ¬ c = btick) (hmid0 : mid ≠ [])
    (hn : 1 ≤ n) (hm : 1 ≤ m)
    (hpost : ∀ d, post.head? = some d → ¬ d = btick) :
    code_split (List.replicate n btick ++
        (mid ++ (List.replicate m btick ++ post)))
      = some ([], List.replicate n btick, mid, List.replicate m btick, post) := by
  have hrepp : ∀ c ∈ List.replicate n btick,
      (fun x => decide (x = btick)) c = true := by
    intro c hc
    rw [List.eq_of_mem_replicate hc]
    simp
  have hreppm : ∀ c ∈ List.replicate m btick,
      (fun x => decide (x = btick)) c = true := by
    intro c hc
    rw [List.eq_of_mem_replicate hc]
    simp
  have hmidhead : ∀ d, (mid ++ (List.replicate m btick ++ post)).head? = some d →
      (fun x => decide (x = btick)) d = false := by
    intro d hd
    cases mid with
    | nil => exact absurd rfl hmid0
    | cons c cs =>
      simp at hd
      subst hd
      simpa using hmid c (List.mem_cons_self c _)
  have hmidall : ∀ c ∈ mid, (fun x => decide (¬ x = btick)) c = true := by
    intro c hc
    simpa using hmid c hc
  have hrephead : ∀ d, (List.replicate m btick ++ post).head? = some d →
      (fun x => decide (¬ x = btick)) d = false := by
    intro d hd
    obtain ⟨k, rfl⟩ : ∃ k, m = k + 1 := ⟨m - 1, by omega⟩
    rw [List.replicate_succ] at hd
    simp at hd
    subst hd
    simp
  have hposthead : ∀ d, post.head? = some d →
      (fun x => decide (x = btick)) d = false := by
    intro d hd
    simpa using hpost d hd
  have hhead : (List.replicate n btick ++
      (mid ++ (List.replicate m btick ++ post))).head? = some btick := by
    obtain ⟨k, rfl⟩ : ∃ k, n = k + 1 := ⟨n - 1, by omega⟩
    rw [List.replicate_succ]
    rfl
  have htw1 : (List.replicate n btick ++
      (mid ++ (List.replicate m btick ++ post))).takeWhile
      (fun x => x = btick) = List.replicate n btick := by
    rw [tw_append_all _ hrepp, tw_head_stop hmidhead]
    simp
  have hdw1 : (List.replicate n btick ++
      (mid ++ (List.replicate m btick ++ post))).dropWhile
      (fun x => x = btick) = mid ++ (List.replicate m btick ++ post) := by
    rw [dw_append_all _ hrepp, dw_head_stop hmidhead]
  have htw2 : (mid ++ (List.replicate m btick ++ post)).takeWhile
      (fun x => ¬ x = btick) = mid := by
    rw [tw_append_all _ hmidall, tw_head_stop hrephead]
    simp
  have hdw2 : (mid ++ (List.replicate m btick ++ post)).dropWhile
      (fun x => ¬ x = btick) = List.replicate m btick ++ post := by
    rw [dw_append_all _ hmidall, dw_head_stop hrephead]
  have htw3 : (List.replicate m btick ++ post).takeWhile
      (fun x => x = btick) = List.replicate m btick := by
    rw [tw_append_all _ hreppm, tw_head_stop hposthead]
    simp
  have hdw3 : (List.replicate m btick ++ post).dropWhile
      (fun x => x = btick) = post := by
    rw [dw_append_all _ hreppm, dw_head_stop hposthead]
  rw [code_split_eq_of_head hhead]
  rw [hdw1, hdw2, htw3]
  rw [if_pos (by simp [List.replicate_eq_nil_iff]; omega)]
  rw [htw1, htw2, hdw3]

/-- Value of `code_split` on `backticks ++ post` with no further backtick: the
run itself is split into an empty span. -/
theorem code_split_shape2 {post : List Char} {r : Nat}
    (hpost : ∀ c ∈ post, ¬ c = btick) (hr : 2 ≤ r) :
    code_split (List.replicate r btick ++ post)
      = some ([], (List.replicate r btick).dropLast, [], [btick], post) := by
  have hrepp : ∀ c ∈ List.replicate r btick,
      (fun x => decide (x = btick)) c = true := by
    intro c hc
    rw [List.eq_of_mem_replicate hc]
    simp
  have hposthead : ∀ d, post.head? = some d →
      (fun x => decide (x = btick)) d = false := by
    intro d hd
    have hd' : d ∈ post := List.mem_of_mem_head? (by simpa using hd)
    simpa using hpost d hd'
  have hpostall : ∀ c ∈ post, (fun x => decide (¬ x = btick)) c = true := by
    intro c hc
    simpa using hpost c hc
  have hhead : (List.replicate r btick ++ post).head? = some btick := by
    obtain ⟨k, rfl⟩ : ∃ k, r = k + 1 := ⟨r - 1, by omega⟩
    rw [List.replicate_succ]
    rfl
  have htw1 : (List.replicate r btick ++ post).takeWhile
      (fun x => x = btick) = List.replicate r btick := by
    rw [tw_append_all _ hrepp, tw_head_stop hposthead]
    simp
  have hdw1 : (List.replicate r btick ++ post).dropWhile
      (fun x => x = btick) = post := by
    rw [dw_append_all _ hrepp, dw_head_stop hposthead]
  have htw2 : post.takeWhile (fun x => ¬ x = btick) = post :=
    tw_all_self hpostall
  have hdw2 : post.dropWhile (fun x => ¬ x = btick) = [] :=
    List.dropWhile_eq_nil_iff.mpr hpostall
  rw [code_split_eq_of_head hhead]
  rw [hdw1, hdw2]
  rw [if_neg (by simp)]
  rw [htw1, htw2]
  rw [if_pos (by rw [List.length_replicate]; omega)]

/-- C6.  The inline-code stage: (1) on
`pre ++ n backticks ++ mid ++ m backticks ++ post` (with `pre` and the
nonempty `mid` backtick-free and the opening/closing runs maximal) it
converts exactly the first span, reconciling asymmetric runs by
appending the excess closing backticks to the end of the code content
when the opening run is shorter and prepending the excess opening
backticks when it is longer, and leaves `post` untouched; (2) an empty
span (one maximal run of two or more adjacent backticks with no later
backtick) is not converted at all. -/
theorem C6_inline_code_stage :
    (∀ (pre mid post : List Char) (n m : Nat),
      (∀ c ∈ pre, ¬ c = btick) → (∀ c ∈ mid, ¬ c = btick) → mid ≠ [] →
      1 ≤ n → 1 ≤ m → (∀ d, post.head? = some d → ¬ d = btick) →
      code_stage (pre ++ (List.replicate n btick ++
          (mid ++ (List.replicate m btick ++ post)))) =
        pre ++ ("<code>".data ++
          ((if n < m then mid ++ List.replicate (m - n) btick
            else if m < n then List.replicate (n - m) btick ++ mid
            else mid) ++ ("</code>".data ++ post)))) ∧
    (∀ (pre post : List Char) (r : Nat),
      (∀ c ∈ pre, ¬ c = btick) → (∀ c ∈ post, ¬ c = btick) → 2 ≤ r →
      code_stage (pre ++ (List.replicate r btick ++ post)) =
        pre ++ (List.replicate r btick ++ post)) := by
  constructor
  · intro pre mid post n m hpre hmid hmid0 hn hm hpost
    unfold code_stage
    rw [code_split_shift _ hpre,
      code_split_shape1 hmid hmid0 hn hm hpost]
    simp only [Option.map_some']
    rw [if_pos (by simpa using List.length_pos.mpr hmid0)]
    simp only [List.length_replicate, List.append_nil]
    rcases Nat.lt_trichotomy n m with h | h | h
    · rw [if_pos ⟨(Nat.min_eq_left (Nat.le_of_lt h)).symm ▸ rfl, by omega⟩]
      rw [List.take_replicate]
      rw [if_pos h]
      have hmin : (m - n ⊓ m) ⊓ m = m - n := by omega
      rw [hmin]
      simp [List.append_assoc]
    · subst h
      rw [if_neg (by omega), if_neg (by omega)]
      rw [if_neg (by omega), if_neg (by omega)]
      simp [List.append_assoc]
    · rw [if_neg (by
        rintro ⟨h1, _⟩
        rw [Nat.min_eq_right (Nat.le_of_lt h)] at h1
        omega)]
      rw [if_pos ⟨(Nat.min_eq_right (Nat.le_of_lt h)).symm ▸ rfl, by omega⟩]
      rw [List.take_replicate]
      rw [if_neg (by omega), if_pos h]
      have hmin : (n - n ⊓ m) ⊓ n = n - m := by omega
      rw [hmin]
      simp [List.append_assoc]
  · intro pre post r hpre hpost hr
    unfold code_stage
    rw [code_split_shift _ hpre, code_split_shape2 hpost hr]
    simp only [Option.map_some']
    rw [if_neg (by simp)]

/-- C6, witness: one opening backtick against three closing backticks;
the two excess closing backticks are appended to the code content. -/
theorem C6_witness :
    code_stage (['a'] ++ (List.replicate 1 btick ++
        (['b'] ++ (List.replicate 3 btick ++ ['c'])))) =
      ['a'] ++ ("<code>".data ++
        ((if 1 < 3 then ['b'] ++ List.replicate (3 - 1) btick
          else if 3 < 1 then List.replicate (1 - 3) btick ++ ['b']
          else ['b']) ++ ("</code>".data ++ ['c']))) :=
  C6_inline_code_stage.1 ['a'] ['b'] ['c'] 1 3
    (by intro c hc; simp at hc; subst hc; decide)
    (by intro c hc; simp at hc; subst hc; decide)
    (by simp) (by omega) (by omega)
    (by intro d hd; simp at hd; subst hd; decide)

end MdHtml
